import Mathlib

/-!
Verification of the quantum-state-tomography reconstruction design described in
the repository specification. The notebooks call an external fitting library, so
the components below (basis generator, outcome aggregator, reconstruction
engine, fidelity helper) are modelled from the specification text, while the
conditional-tomography post-selection loop is embedded directly from the
notebook cell that implements it. Machine reals are modelled by real and
complex numbers; the eigendecomposition used by the physical projection is the
Mathlib spectral theorem for Hermitian matrices.
-/

open Matrix ComplexOrder

/-- Modelled from the spec: the reconstruction engine works with a Hermitian
intermediate; symmetrizing makes the projection total on arbitrary matrices
(on the Hermitian matrices produced by the linear-inversion step it is the
identity). -/
noncomputable def hermitize {ι : Type} [Fintype ι] (ρ : Matrix ι ι ℂ) : Matrix ι ι ℂ :=
  ((1 : ℂ)/2) • (ρ + ρᴴ)

lemma hermitize_isHermitian {ι : Type} [Fintype ι] (ρ : Matrix ι ι ℂ) :
    (hermitize ρ).IsHermitian := by
  unfold hermitize Matrix.IsHermitian
  rw [conjTranspose_smul, conjTranspose_add, conjTranspose_conjTranspose]
  congr 1
  · simp
  · abel

/-- Modelled from the spec: projection of a Hermitian matrix onto the physical
(positive-semidefinite, trace-one) set, by eigendecomposing, clipping negative
eigenvalues to zero, rescaling the clipped eigenvalues to unit sum and
reconstructing from the eigenvector unitary. This models step 5 of the
reconstruction algorithm of `StateTomographyFitter.fit`, which is not part of
the repository sources. -/
noncomputable def projectH {ι : Type} [Fintype ι] [DecidableEq ι]
    (S : Matrix ι ι ℂ) (hS : S.IsHermitian) : Matrix ι ι ℂ :=
  (hS.eigenvectorUnitary : Matrix ι ι ℂ) *
    Matrix.diagonal (fun k =>
      ((max (hS.eigenvalues k) 0 / ∑ j, max (hS.eigenvalues j) 0 : ℝ) : ℂ)) *
    star (hS.eigenvectorUnitary : Matrix ι ι ℂ)

lemma star_clip_fun {ι : Type} [Fintype ι] [DecidableEq ι]
    (S : Matrix ι ι ℂ) (hS : S.IsHermitian) :
    (star fun k => ((max (hS.eigenvalues k) 0 / ∑ j, max (hS.eigenvalues j) 0 : ℝ) : ℂ)) =
      fun k => ((max (hS.eigenvalues k) 0 / ∑ j, max (hS.eigenvalues j) 0 : ℝ) : ℂ) := by
  funext k
  simp [Complex.conj_ofReal]

lemma projectH_isHermitian {ι : Type} [Fintype ι] [DecidableEq ι]
    (S : Matrix ι ι ℂ) (hS : S.IsHermitian) : (projectH S hS).IsHermitian := by
  unfold projectH Matrix.IsHermitian
  rw [star_eq_conjTranspose, conjTranspose_mul, conjTranspose_mul,
    conjTranspose_conjTranspose, diagonal_conjTranspose, star_clip_fun,
    mul_assoc]

lemma projectH_posSemidef {ι : Type} [Fintype ι] [DecidableEq ι]
    (S : Matrix ι ι ℂ) (hS : S.IsHermitian) : (projectH S hS).PosSemidef := by
  unfold projectH
  have hd : (Matrix.diagonal (fun k =>
      ((max (hS.eigenvalues k) 0 / ∑ j, max (hS.eigenvalues j) 0 : ℝ) : ℂ))).PosSemidef := by
    refine Matrix.posSemidef_diagonal_iff.mpr fun i => ?_
    rw [Complex.zero_le_real]
    positivity
  have h2 := hd.mul_mul_conjTranspose_same (hS.eigenvectorUnitary : Matrix ι ι ℂ)
  rwa [← star_eq_conjTranspose] at h2

lemma sum_eigenvalues_eq_trace' {ι : Type} [Fintype ι] [DecidableEq ι]
    (S : Matrix ι ι ℂ) (hS : S.IsHermitian) :
    ((∑ k, hS.eigenvalues k : ℝ) : ℂ) = S.trace := by
  conv_rhs => rw [hS.spectral_theorem]
  rw [trace_mul_cycle]
  rw [Matrix.mem_unitaryGroup_iff'.mp (hS.eigenvectorUnitary).2, one_mul, trace_diagonal]
  push_cast
  rfl

lemma projectH_trace {ι : Type} [Fintype ι] [DecidableEq ι]
    (S : Matrix ι ι ℂ) (hS : S.IsHermitian) (htr : S.trace = 1) :
    (projectH S hS).trace = 1 := by
  have hsum : (∑ k, hS.eigenvalues k) = 1 := by
    have := sum_eigenvalues_eq_trace' S hS
    rw [htr] at this
    exact_mod_cast this
  have hpos : (0 : ℝ) < ∑ j, max (hS.eigenvalues j) 0 := by
    have hle : (1 : ℝ) ≤ ∑ j, max (hS.eigenvalues j) 0 := by
      rw [← hsum]
      exact Finset.sum_le_sum fun j _ => le_max_left _ _
    linarith
  unfold projectH
  rw [trace_mul_cycle, Matrix.mem_unitaryGroup_iff'.mp (hS.eigenvectorUnitary).2, one_mul,
    trace_diagonal]
  rw [← Complex.ofReal_sum]
  rw [← Finset.sum_div, div_self (ne_of_gt hpos)]
  norm_num

lemma projectH_fixed {ι : Type} [Fintype ι] [DecidableEq ι]
    (S : Matrix ι ι ℂ) (hS : S.IsHermitian) (hPSD : S.PosSemidef) (htr : S.trace = 1) :
    projectH S hS = S := by
  have hnn : ∀ k, 0 ≤ hS.eigenvalues k := fun k => hPSD.eigenvalues_nonneg k
  have hmax : ∀ k, max (hS.eigenvalues k) 0 = hS.eigenvalues k := fun k => max_eq_left (hnn k)
  have hsum : (∑ k, hS.eigenvalues k) = 1 := by
    have := sum_eigenvalues_eq_trace' S hS
    rw [htr] at this
    exact_mod_cast this
  unfold projectH
  have hfun : (fun k => ((max (hS.eigenvalues k) 0 / ∑ j, max (hS.eigenvalues j) 0 : ℝ) : ℂ))
      = RCLike.ofReal ∘ hS.eigenvalues := by
    funext k
    simp only [hmax, hsum, div_one, Function.comp_apply]
    rfl
  rw [hfun]
  exact hS.spectral_theorem.symm

lemma projectH_congr {ι : Type} [Fintype ι] [DecidableEq ι]
    {S T : Matrix ι ι ℂ} (hS : S.IsHermitian) (hT : T.IsHermitian) (h : S = T) :
    projectH S hS = projectH T hT := by
  subst h
  rfl

/-- Modelled from the spec: the physical projection applied by fit to the raw
linear-inversion estimate. -/
noncomputable def project {ι : Type} [Fintype ι] [DecidableEq ι] (ρ : Matrix ι ι ℂ) :
    Matrix ι ι ℂ :=
  projectH (hermitize ρ) (hermitize_isHermitian ρ)

lemma hermitize_of_isHermitian {ι : Type} [Fintype ι] (ρ : Matrix ι ι ℂ)
    (hρ : ρ.IsHermitian) : hermitize ρ = ρ := by
  unfold hermitize
  rw [hρ.eq]
  rw [← two_smul ℂ ρ, smul_smul]
  norm_num

lemma project_eq_projectH {ι : Type} [Fintype ι] [DecidableEq ι] (ρ : Matrix ι ι ℂ)
    (hρ : ρ.IsHermitian) : project ρ = projectH ρ hρ :=
  projectH_congr _ _ (hermitize_of_isHermitian ρ hρ)

/-- Symmetric part of a real matrix, used to make the pseudo-inverse total. -/
noncomputable def symPart {κ : Type} [Fintype κ] (M : Matrix κ κ ℝ) : Matrix κ κ ℝ :=
  ((1 : ℝ)/2) • (M + Mᴴ)

lemma symPart_isHermitian {κ : Type} [Fintype κ] (M : Matrix κ κ ℝ) :
    (symPart M).IsHermitian := by
  have hadd : (M + Mᴴ)ᴴ = M + Mᴴ := by
    rw [conjTranspose_add, conjTranspose_conjTranspose]
    abel
  unfold symPart Matrix.IsHermitian
  rw [conjTranspose_smul, hadd]
  simp

lemma symPart_of_isHermitian {κ : Type} [Fintype κ] (M : Matrix κ κ ℝ)
    (hM : M.IsHermitian) : symPart M = M := by
  unfold symPart
  rw [hM.eq, ← two_smul ℝ M, smul_smul]
  norm_num

/-- Pseudo-inverse of a real symmetric matrix through its eigendecomposition;
zero eigenvalues are inverted to zero, giving the Moore-Penrose inverse on
symmetric positive-semidefinite matrices such as the normal-equations matrix. -/
noncomputable def symPinvH {κ : Type} [Fintype κ] [DecidableEq κ]
    (S : Matrix κ κ ℝ) (hS : S.IsHermitian) : Matrix κ κ ℝ :=
  (hS.eigenvectorUnitary : Matrix κ κ ℝ) *
    Matrix.diagonal (fun k => (hS.eigenvalues k)⁻¹) *
    star (hS.eigenvectorUnitary : Matrix κ κ ℝ)

/-- Modelled from the spec: the pseudo-inverse used for the (possibly
rank-deficient) weighted normal equations of the least-squares solve. -/
noncomputable def symPinv {κ : Type} [Fintype κ] [DecidableEq κ] (M : Matrix κ κ ℝ) :
    Matrix κ κ ℝ :=
  symPinvH (symPart M) (symPart_isHermitian M)

lemma symPinvH_congr {κ : Type} [Fintype κ] [DecidableEq κ]
    {S T : Matrix κ κ ℝ} (hS : S.IsHermitian) (hT : T.IsHermitian) (h : S = T) :
    symPinvH S hS = symPinvH T hT := by
  subst h
  rfl

lemma symPinvH_mul_self {κ : Type} [Fintype κ] [DecidableEq κ]
    (S : Matrix κ κ ℝ) (hS : S.IsHermitian) (hdet : S.det ≠ 0) :
    symPinvH S hS * S = 1 := by
  have hev : ∀ k, hS.eigenvalues k ≠ 0 := by
    intro k hk
    apply hdet
    rw [hS.det_eq_prod_eigenvalues]
    refine Finset.prod_eq_zero (Finset.mem_univ k) ?_
    exact_mod_cast hk
  have hUU : (hS.eigenvectorUnitary : Matrix κ κ ℝ) * star (hS.eigenvectorUnitary : Matrix κ κ ℝ)
      = 1 := Matrix.mem_unitaryGroup_iff.mp (hS.eigenvectorUnitary).2
  have h1 : star (hS.eigenvectorUnitary : Matrix κ κ ℝ) * S
      = Matrix.diagonal (RCLike.ofReal ∘ hS.eigenvalues) *
        star (hS.eigenvectorUnitary : Matrix κ κ ℝ) := by
    calc star (hS.eigenvectorUnitary : Matrix κ κ ℝ) * S
        = star (hS.eigenvectorUnitary : Matrix κ κ ℝ) * S *
          ((hS.eigenvectorUnitary : Matrix κ κ ℝ) *
            star (hS.eigenvectorUnitary : Matrix κ κ ℝ)) := by rw [hUU, mul_one]
      _ = (star (hS.eigenvectorUnitary : Matrix κ κ ℝ) * S *
            (hS.eigenvectorUnitary : Matrix κ κ ℝ)) *
          star (hS.eigenvectorUnitary : Matrix κ κ ℝ) := by
            rw [mul_assoc, mul_assoc, mul_assoc]
      _ = Matrix.diagonal (RCLike.ofReal ∘ hS.eigenvalues) *
          star (hS.eigenvectorUnitary : Matrix κ κ ℝ) := by
            rw [hS.star_mul_self_mul_eq_diagonal]
  have hDD : Matrix.diagonal (fun k => (hS.eigenvalues k)⁻¹) *
      Matrix.diagonal (RCLike.ofReal ∘ hS.eigenvalues) = 1 := by
    rw [diagonal_mul_diagonal]
    rw [show (fun k => (hS.eigenvalues k)⁻¹ * (RCLike.ofReal ∘ hS.eigenvalues) k)
        = fun _ => (1 : ℝ) from funext fun k => by
          simp only [Function.comp_apply, RCLike.ofReal_real_eq_id, id_eq]
          exact inv_mul_cancel₀ (hev k)]
    exact diagonal_one
  unfold symPinvH
  set U : Matrix κ κ ℝ := (hS.eigenvectorUnitary : Matrix κ κ ℝ) with hU
  set D' : Matrix κ κ ℝ := Matrix.diagonal (fun k => (hS.eigenvalues k)⁻¹) with hDi
  set D : Matrix κ κ ℝ := Matrix.diagonal (RCLike.ofReal ∘ hS.eigenvalues) with hD
  calc U * D' * star U * S = U * D' * (star U * S) := by rw [mul_assoc]
    _ = U * D' * (D * star U) := by rw [h1]
    _ = U * (D' * D) * star U := by rw [← mul_assoc, mul_assoc U D' D]
    _ = U * star U := by rw [hDD, mul_one]
    _ = 1 := hUU

lemma symPinv_eq_of_mul_eq_one {κ : Type} [Fintype κ] [DecidableEq κ]
    {M N : Matrix κ κ ℝ} (hM : M.IsHermitian) (h : M * N = 1) : symPinv M = N := by
  have hdet : M.det ≠ 0 := by
    intro h0
    have := congrArg Matrix.det h
    rw [Matrix.det_mul, h0, zero_mul, Matrix.det_one] at this
    norm_num at this
  have hinv : symPinv M * M = 1 := by
    unfold symPinv
    rw [symPinvH_congr _ hM (symPart_of_isHermitian M hM)]
    exact symPinvH_mul_self M hM hdet
  calc symPinv M = symPinv M * (M * N) := by rw [h, mul_one]
    _ = (symPinv M * M) * N := by rw [mul_assoc]
    _ = N := by rw [hinv, one_mul]

/-- Modelled from the spec: one (measurement operator, empirical probability,
shot count) record consumed by the reconstruction engine. -/
structure FrequencyEntry (ι : Type) where
  op : Matrix ι ι ℂ
  prob : ℝ
  shots : ℕ

/-- Modelled from the spec: the error taxonomy of the tomography core. -/
inductive TomoError where
  | invalidConfiguration
  | insufficientData
  | dimensionMismatch
  deriving DecidableEq, Repr

/-- Modelled from the spec: row i of the design matrix holds the coordinates of
operator i in the Hermitian operator basis, via the trace pairing. -/
noncomputable def designMatrix {ι : Type} [Fintype ι] {p : ℕ} (B : Fin p → Matrix ι ι ℂ)
    (m : ℕ) (freq : Fin m → FrequencyEntry ι) : Matrix (Fin m) (Fin p) ℝ :=
  fun i j => ((freq i).op * B j).trace.re

/-- Modelled from the spec: right-hand side of the linear system, the observed
probability minus the fixed identity-component contribution. -/
noncomputable def rhsVector {ι : Type} [Fintype ι] (m : ℕ) (freq : Fin m → FrequencyEntry ι) :
    Fin m → ℝ :=
  fun i => (freq i).prob - ((freq i).op.trace.re) / (Fintype.card ι)

/-- Modelled from the spec: inverse binomial variance weight, clipped away from
zero by eps before inverting. -/
noncomputable def varWeight {ι : Type} (eps : ℝ) (e : FrequencyEntry ι) : ℝ :=
  (max eps (e.prob * (1 - e.prob) / e.shots))⁻¹

/-- Modelled from the spec: per-equation weights; all ones in unweighted mode. -/
noncomputable def weightVec {ι : Type} (weighted : Bool) (eps : ℝ)
    (m : ℕ) (freq : Fin m → FrequencyEntry ι) : Fin m → ℝ :=
  fun i => if weighted then varWeight eps (freq i) else 1

/-- Modelled from the spec: weighted normal-equations least-squares solve using
the pseudo-inverse, so rank-deficient and under-determined systems are solved
rather than rejected. -/
noncomputable def solveLS {ι : Type} [Fintype ι] {p : ℕ}
    (B : Fin p → Matrix ι ι ℂ) (weighted : Bool) (eps : ℝ)
    (m : ℕ) (freq : Fin m → FrequencyEntry ι) : Fin p → ℝ :=
  symPinv ((designMatrix B m freq)ᵀ * Matrix.diagonal (weightVec weighted eps m freq) *
      designMatrix B m freq) *ᵥ
    ((designMatrix B m freq)ᵀ *ᵥ
      (fun i => weightVec weighted eps m freq i * rhsVector m freq i))

/-- Modelled from the spec: unconstrained linear-inversion estimate; the
identity coefficient is fixed at one over the dimension so that the trace is
one by construction. -/
noncomputable def rhoRaw {ι : Type} [Fintype ι] [DecidableEq ι] {p : ℕ}
    (B : Fin p → Matrix ι ι ℂ) (weighted : Bool) (eps : ℝ)
    (m : ℕ) (freq : Fin m → FrequencyEntry ι) : Matrix ι ι ℂ :=
  ((Fintype.card ι : ℂ))⁻¹ • (1 : Matrix ι ι ℂ) +
    ∑ j, ((solveLS B weighted eps m freq j : ℝ) : ℂ) • B j

/-- Modelled from the spec: the reconstruction engine. Fails with
InsufficientData exactly on an empty FrequencyEntry list; otherwise solves the
weighted least-squares problem and projects onto the physical set. Models
`StateTomographyFitter.fit`, which the notebooks call from an external
library. -/
noncomputable def fit {ι : Type} [Fintype ι] [DecidableEq ι] {p : ℕ}
    (B : Fin p → Matrix ι ι ℂ) (weighted : Bool) (eps : ℝ)
    (entries : List (FrequencyEntry ι)) : Except TomoError (Matrix ι ι ℂ) :=
  if entries.isEmpty then .error .insufficientData
  else .ok (project (rhoRaw B weighted eps entries.length entries.get))

lemma rhoRaw_isHermitian {ι : Type} [Fintype ι] [DecidableEq ι] {p : ℕ}
    (B : Fin p → Matrix ι ι ℂ) (hB : ∀ j, (B j).IsHermitian) (weighted : Bool) (eps : ℝ)
    (m : ℕ) (freq : Fin m → FrequencyEntry ι) :
    (rhoRaw B weighted eps m freq).IsHermitian := by
  unfold rhoRaw
  apply Matrix.IsHermitian.add
  · unfold Matrix.IsHermitian
    rw [conjTranspose_smul, conjTranspose_one]
    congr 1
    simp
  · unfold Matrix.IsHermitian
    rw [conjTranspose_sum]
    refine Finset.sum_congr rfl fun j _ => ?_
    rw [conjTranspose_smul, (hB j).eq]
    congr 1
    exact Complex.conj_ofReal _

lemma rhoRaw_trace {ι : Type} [Fintype ι] [DecidableEq ι] [Nonempty ι] {p : ℕ}
    (B : Fin p → Matrix ι ι ℂ) (hB : ∀ j, (B j).trace = 0) (weighted : Bool) (eps : ℝ)
    (m : ℕ) (freq : Fin m → FrequencyEntry ι) :
    (rhoRaw B weighted eps m freq).trace = 1 := by
  unfold rhoRaw
  rw [trace_add, trace_smul, trace_one, trace_sum]
  have h1 : ∀ j ∈ Finset.univ, (((solveLS B weighted eps m freq j : ℝ) : ℂ) • B j).trace = 0 := by
    intro j _
    rw [trace_smul, hB j, smul_zero]
  rw [Finset.sum_congr rfl h1, Finset.sum_const, smul_zero, add_zero]
  have hcard : (Fintype.card ι : ℂ) ≠ 0 := by
    exact_mod_cast Nat.cast_ne_zero.mpr Fintype.card_ne_zero
  rw [smul_eq_mul, inv_mul_cancel₀ hcard]

lemma project_isHermitian {ι : Type} [Fintype ι] [DecidableEq ι] (ρ : Matrix ι ι ℂ) :
    (project ρ).IsHermitian :=
  projectH_isHermitian _ _

lemma project_posSemidef {ι : Type} [Fintype ι] [DecidableEq ι] (ρ : Matrix ι ι ℂ) :
    (project ρ).PosSemidef :=
  projectH_posSemidef _ _

lemma hermitize_trace {ι : Type} [Fintype ι] (ρ : Matrix ι ι ℂ) (h : ρ.trace = 1) :
    (hermitize ρ).trace = 1 := by
  unfold hermitize
  rw [trace_smul, trace_add, trace_conjTranspose, h]
  simp
  norm_num

lemma project_trace {ι : Type} [Fintype ι] [DecidableEq ι] (ρ : Matrix ι ι ℂ)
    (h : ρ.trace = 1) : (project ρ).trace = 1 :=
  projectH_trace _ _ (hermitize_trace ρ h)

lemma fit_ok_invariants {ι : Type} [Fintype ι] [DecidableEq ι] [Nonempty ι] {p : ℕ}
    (B : Fin p → Matrix ι ι ℂ) (hB2 : ∀ j, (B j).trace = 0)
    (weighted : Bool) (eps : ℝ) (entries : List (FrequencyEntry ι)) (ρ : Matrix ι ι ℂ)
    (h : fit B weighted eps entries = .ok ρ) :
    ρ.IsHermitian ∧ ρ.trace = 1 ∧ ρ.PosSemidef := by
  unfold fit at h
  by_cases he : entries.isEmpty
  · rw [if_pos he] at h
    exact absurd h (by simp)
  · rw [if_neg he] at h
    have hρ : ρ = project (rhoRaw B weighted eps entries.length entries.get) := by
      injection h with h'
      exact h'.symm
    subst hρ
    refine ⟨project_isHermitian _, project_trace _ ?_, project_posSemidef _⟩
    exact rhoRaw_trace B hB2 weighted eps entries.length entries.get

/-- Pauli X matrix. -/
def sigmaX : Matrix (Fin 2) (Fin 2) ℂ := !![0, 1; 1, 0]

/-- Pauli Y matrix. -/
def sigmaY : Matrix (Fin 2) (Fin 2) ℂ := !![0, -Complex.I; Complex.I, 0]

/-- Pauli Z matrix. -/
def sigmaZ : Matrix (Fin 2) (Fin 2) ℂ := !![1, 0; 0, -1]

/-- The traceless Hermitian operator basis used by the one-qubit engine. -/
noncomputable def pauliBasis1 : Fin 3 → Matrix (Fin 2) (Fin 2) ℂ := ![sigmaX, sigmaY, sigmaZ]

noncomputable def opXp : Matrix (Fin 2) (Fin 2) ℂ := !![1/2, 1/2; 1/2, 1/2]

noncomputable def opYp : Matrix (Fin 2) (Fin 2) ℂ := !![1/2, -Complex.I/2; Complex.I/2, 1/2]

noncomputable def opYm : Matrix (Fin 2) (Fin 2) ℂ := !![1/2, Complex.I/2; -Complex.I/2, 1/2]

noncomputable def opZp : Matrix (Fin 2) (Fin 2) ℂ := !![1, 0; 0, 0]

noncomputable def opZm : Matrix (Fin 2) (Fin 2) ℂ := !![0, 0; 0, 1]

/-- The noiseless Hadamard-state frequencies of the concrete scenario, in
vector form. -/
noncomputable def hadamardVec : Fin 5 → FrequencyEntry (Fin 2) :=
  ![⟨opXp, 1, 1⟩, ⟨opYp, 1/2, 1⟩, ⟨opYm, 1/2, 1⟩, ⟨opZp, 1/2, 1⟩, ⟨opZm, 1/2, 1⟩]

/-- The noiseless Hadamard-state frequencies of the concrete scenario: the plus
outcome of X has probability one, and both outcomes of Y and of Z have
probability one half. -/
noncomputable def hadamardEntries : List (FrequencyEntry (Fin 2)) :=
  [⟨opXp, 1, 1⟩, ⟨opYp, 1/2, 1⟩, ⟨opYm, 1/2, 1⟩, ⟨opZp, 1/2, 1⟩, ⟨opZm, 1/2, 1⟩]

/-- The plus-state density matrix, expected reconstruction of the scenario. -/
noncomputable def rhoPlus : Matrix (Fin 2) (Fin 2) ℂ := !![1/2, 1/2; 1/2, 1/2]

lemma hadamard_designMatrix :
    designMatrix pauliBasis1 5 hadamardVec =
      !![1, 0, 0; 0, 1, 0; 0, -1, 0; 0, 0, 1; 0, 0, -1] := by
  ext i j
  fin_cases i <;> fin_cases j <;>
    simp [designMatrix, pauliBasis1, hadamardVec, sigmaX, sigmaY, sigmaZ,
      opXp, opYp, opYm, opZp, opZm, Matrix.mul_fin_two, Matrix.trace_fin_two,
      Matrix.vecHead, Matrix.vecTail,
      Matrix.of_apply, Matrix.cons_val_zero, Matrix.cons_val_one, Matrix.head_cons] <;>
    norm_num [Complex.div_re]

lemma hadamard_rhs : rhsVector 5 hadamardVec = ![1/2, 0, 0, 0, 0] := by
  funext i
  fin_cases i <;>
    simp [rhsVector, hadamardVec, opXp, opYp, opYm, opZp, opZm,
      Matrix.trace_fin_two, Matrix.vecHead, Matrix.vecTail,
      Matrix.of_apply, Matrix.cons_val_zero, Matrix.cons_val_one, Matrix.head_cons]
  all_goals norm_num

lemma hadamard_weights :
    weightVec false (0 : ℝ) 5 hadamardVec = fun _ : Fin 5 => (1 : ℝ) := rfl

lemma hadamard_wb :
    (fun i => weightVec false (0 : ℝ) 5 hadamardVec i * rhsVector 5 hadamardVec i)
      = (![1/2, 0, 0, 0, 0] : Fin 5 → ℝ) := by
  funext i
  simp [weightVec, hadamard_rhs]

/-- Normal-equations matrix of the Hadamard scenario. -/
noncomputable def hadamardNormal : Matrix (Fin 3) (Fin 3) ℝ := !![1, 0, 0; 0, 2, 0; 0, 0, 2]

lemma hadamard_normal_eq :
    (designMatrix pauliBasis1 5 hadamardVec)ᵀ *
        Matrix.diagonal (weightVec false (0 : ℝ) 5 hadamardVec) *
        designMatrix pauliBasis1 5 hadamardVec = hadamardNormal := by
  rw [hadamard_weights, hadamard_designMatrix]
  rw [show Matrix.diagonal (fun _ : Fin 5 => (1:ℝ)) = 1 from Matrix.diagonal_one,
    Matrix.mul_one]
  ext i j
  fin_cases i <;> fin_cases j <;>
    simp [hadamardNormal, Matrix.mul_apply, Fin.sum_univ_five, Matrix.transpose_apply,
      Matrix.vecHead, Matrix.vecTail,
      Matrix.of_apply, Matrix.cons_val_zero, Matrix.cons_val_one, Matrix.head_cons] <;>
    norm_num

lemma hadamard_sympinv :
    symPinv hadamardNormal = !![1, 0, 0; 0, 1/2, 0; 0, 0, 1/2] := by
  apply symPinv_eq_of_mul_eq_one
  · unfold Matrix.IsHermitian hadamardNormal
    ext i j
    fin_cases i <;> fin_cases j <;>
      simp [Matrix.conjTranspose_apply, Matrix.vecHead, Matrix.vecTail]
  · ext i j
    fin_cases i <;> fin_cases j <;>
      simp [hadamardNormal, Matrix.mul_apply, Fin.sum_univ_three, Matrix.one_apply,
        Matrix.vecHead, Matrix.vecTail]

lemma hadamard_solve :
    solveLS pauliBasis1 false (0 : ℝ) 5 hadamardVec = ![1/2, 0, 0] := by
  unfold solveLS
  rw [hadamard_normal_eq, hadamard_sympinv, hadamard_wb, hadamard_designMatrix]
  funext j
  fin_cases j <;>
    simp [Matrix.mulVec, Matrix.dotProduct, Fin.sum_univ_five, Fin.sum_univ_three,
      Matrix.transpose_apply, Matrix.vecHead, Matrix.vecTail]

lemma hadamard_rhoRaw :
    rhoRaw pauliBasis1 false (0 : ℝ) 5 hadamardVec = rhoPlus := by
  unfold rhoRaw
  rw [hadamard_solve]
  ext i j
  fin_cases i <;> fin_cases j <;>
    simp [pauliBasis1, sigmaX, sigmaY, sigmaZ, rhoPlus, Fin.sum_univ_three,
      Matrix.one_apply, Matrix.vecHead, Matrix.vecTail,
      Matrix.of_apply, Matrix.cons_val_zero, Matrix.cons_val_one, Matrix.head_cons]

lemma rhoPlus_isHermitian : rhoPlus.IsHermitian := by
  unfold Matrix.IsHermitian rhoPlus
  ext i j
  fin_cases i <;> fin_cases j <;>
    simp [Matrix.conjTranspose_apply, Matrix.vecHead, Matrix.vecTail]

lemma rhoPlus_trace : rhoPlus.trace = 1 := by
  unfold rhoPlus
  rw [Matrix.trace_fin_two]
  norm_num [Matrix.vecHead, Matrix.vecTail]

lemma rhoPlus_posSemidef : rhoPlus.PosSemidef := by
  refine ⟨rhoPlus_isHermitian, fun x => ?_⟩
  have hx : Matrix.dotProduct (star x) (rhoPlus *ᵥ x)
      = ((1:ℂ)/2) * ((starRingEnd ℂ) (x 0 + x 1) * (x 0 + x 1)) := by
    simp [Matrix.dotProduct, Matrix.mulVec, rhoPlus, Fin.sum_univ_two,
      Matrix.vecHead, Matrix.vecTail, Matrix.of_apply, Matrix.cons_val_zero,
      Matrix.cons_val_one, Matrix.head_cons]
    ring
  rw [hx, mul_comm, Complex.conj_mul']
  rw [show ((1:ℂ)/2) = ((1/2 : ℝ) : ℂ) from by norm_num]
  rw [← Complex.ofReal_pow, ← Complex.ofReal_mul]
  rw [Complex.zero_le_real]
  positivity

lemma fit_hadamard :
    fit pauliBasis1 false (0 : ℝ) hadamardEntries = .ok rhoPlus := by
  have hget : (hadamardEntries.get : Fin 5 → FrequencyEntry (Fin 2)) = hadamardVec := by
    funext i
    fin_cases i <;> rfl
  have h1 : fit pauliBasis1 false (0 : ℝ) hadamardEntries
      = .ok (project (rhoRaw pauliBasis1 false (0 : ℝ) 5 hadamardEntries.get)) := rfl
  rw [h1, hget, hadamard_rhoRaw]
  rw [project_eq_projectH rhoPlus rhoPlus_isHermitian,
    projectH_fixed rhoPlus rhoPlus_isHermitian rhoPlus_posSemidef rhoPlus_trace]

/-- Modelled from the spec: fidelity of a state against a pure reference ket. -/
noncomputable def fidelityPure {ι : Type} [Fintype ι] (ψ : ι → ℂ) (ρ : Matrix ι ι ℂ) : ℝ :=
  (Matrix.dotProduct (star ψ) (ρ *ᵥ ψ)).re

/-- The plus state, reference ket of the Hadamard scenario. -/
noncomputable def plusKet : Fin 2 → ℂ :=
  ![((Real.sqrt 2)⁻¹ : ℝ), ((Real.sqrt 2)⁻¹ : ℝ)]

lemma fidelity_plus : fidelityPure plusKet rhoPlus = 1 := by
  simp [fidelityPure, Matrix.dotProduct, Matrix.mulVec, plusKet, rhoPlus,
    Fin.sum_univ_two, Matrix.vecHead, Matrix.vecTail, Matrix.of_apply,
    Matrix.cons_val_zero, Matrix.cons_val_one, Matrix.head_cons, Complex.conj_ofReal]
  have h2 : Real.sqrt 2 * Real.sqrt 2 = 2 := Real.mul_self_sqrt (by norm_num)
  nlinarith [h2, Real.sqrt_nonneg 2]

/-- Modelled from the spec: an outcome-count table; a key is the list of
classical-register strings of one measured outcome (the notebook's count keys
split on blanks), the value its shot count. -/
abbrev OutcomeCount := List (List String × ℕ)

/-- Modelled from the spec and the notebook post-selection cell: keep the
outcomes whose leading (ancilla) register equals the required value and drop
that register from the key; with no ancilla configured, leave counts as they
are. -/
def applyPostSelection (cfg : Option String) (c : OutcomeCount) : OutcomeCount :=
  match cfg with
  | none => c
  | some req => (c.filter (fun kv => kv.1.headD ("") = req)).map (fun kv => (kv.1.tail, kv.2))

/-- Total number of shots recorded in an outcome-count table. -/
def totalShots (c : OutcomeCount) : ℕ := (c.map (fun kv => kv.2)).sum

/-- Modelled from the spec: one experiment configuration as seen by the outcome
aggregator: the operator assignment for each outcome key, and the raw counts. -/
structure ConfigData (ι : Type) where
  opOf : List String → Matrix ι ι ℂ
  counts : OutcomeCount

/-- Modelled from the spec: FrequencyEntries of one configuration; surviving
counts are renormalized by the surviving total, and a configuration in which
zero shots survive contributes no entry. -/
noncomputable def aggregateConfig {ι : Type} (cfg : Option String) (cd : ConfigData ι) :
    List (FrequencyEntry ι) :=
  if totalShots (applyPostSelection cfg cd.counts) = 0 then []
  else (applyPostSelection cfg cd.counts).map
    (fun kv => ⟨cd.opOf kv.1, (kv.2 : ℝ) / (totalShots (applyPostSelection cfg cd.counts) : ℝ),
      totalShots (applyPostSelection cfg cd.counts)⟩)

/-- Modelled from the spec: the outcome aggregator over all configurations. -/
noncomputable def aggregate {ι : Type} (cfg : Option String) (cds : List (ConfigData ι)) :
    List (FrequencyEntry ι) :=
  (cds.map (aggregateConfig cfg)).flatten

/-- Concrete aggregator configuration used to exercise the post-selection path. -/
noncomputable def demoConfig : ConfigData (Fin 2) :=
  ⟨fun _ => opZp, [(["1", "0"], 3), (["0", "1"], 2)]⟩

/-- Concrete aggregator configuration in which no shot survives post-selection. -/
noncomputable def demoConfigDead : ConfigData (Fin 2) :=
  ⟨fun _ => opZp, [(["0", "0"], 4)]⟩

lemma mem_applyPostSelection_some (req : String) (c : OutcomeCount) (k : List String) (m : ℕ) :
    (k, m) ∈ applyPostSelection (some req) c ↔
      ∃ key, (key, m) ∈ c ∧ key.headD ("") = req ∧ key.tail = k := by
  simp only [applyPostSelection, List.mem_map, List.mem_filter]
  constructor
  · rintro ⟨⟨key, m'⟩, ⟨hmem, hhead⟩, heq⟩
    obtain ⟨h1, h2⟩ := Prod.mk.injEq _ _ _ _ ▸ heq
    exact ⟨key, by simpa [← h2] using hmem, by simpa using hhead, h1⟩
  · rintro ⟨key, hmem, hhead, htail⟩
    exact ⟨(key, m), ⟨hmem, by simpa using hhead⟩, by simp [htail]⟩

lemma sum_div_counts (c : OutcomeCount) (t : ℝ) :
    (c.map (fun kv => (kv.2 : ℝ) / t)).sum = ((totalShots c : ℕ) : ℝ) / t := by
  induction c with
  | nil => simp [totalShots]
  | cons kv tl ih =>
      rw [List.map_cons, List.sum_cons, ih]
      show (kv.2 : ℝ) / t + ((totalShots tl : ℕ) : ℝ) / t = _
      have htot : totalShots (kv :: tl) = kv.2 + totalShots tl := by
        simp [totalShots]
      rw [htot]
      push_cast
      ring

lemma aggregateConfig_prob_sum {ι : Type} (cfg : Option String) (cd : ConfigData ι)
    (ht : totalShots (applyPostSelection cfg cd.counts) ≠ 0) :
    ((aggregateConfig cfg cd).map FrequencyEntry.prob).sum = 1 := by
  unfold aggregateConfig
  rw [if_neg ht]
  rw [List.map_map]
  have : (FrequencyEntry.prob ∘ fun kv : List String × ℕ =>
      (⟨cd.opOf kv.1, (kv.2 : ℝ) / (totalShots (applyPostSelection cfg cd.counts) : ℝ),
        totalShots (applyPostSelection cfg cd.counts)⟩ : FrequencyEntry ι))
      = fun kv : List String × ℕ =>
        (kv.2 : ℝ) / (totalShots (applyPostSelection cfg cd.counts) : ℝ) := rfl
  rw [this, sum_div_counts]
  rw [div_self]
  exact_mod_cast ht

lemma aggregateConfig_empty_of_no_survivors {ι : Type} (cfg : Option String)
    (cd : ConfigData ι) (h : totalShots (applyPostSelection cfg cd.counts) = 0) :
    aggregateConfig cfg cd = [] := by
  unfold aggregateConfig
  rw [if_pos h]

lemma applyPostSelection_none (c : OutcomeCount) : applyPostSelection none c = c := rfl

lemma fit_ok_of_ne_nil {ι : Type} [Fintype ι] [DecidableEq ι] {p : ℕ}
    (B : Fin p → Matrix ι ι ℂ) (weighted : Bool) (eps : ℝ)
    (entries : List (FrequencyEntry ι)) (h : entries ≠ []) :
    fit B weighted eps entries
      = .ok (project (rhoRaw B weighted eps entries.length entries.get)) := by
  unfold fit
  rw [if_neg (by simpa [List.isEmpty_iff] using h)]

/-- Modelled from the spec: single-qubit measurement basis choices of the Pauli
basis set. -/
inductive PauliMeas where
  | X
  | Y
  | Z
  deriving DecidableEq, Repr

/-- The fixed-order single-qubit basis choices. -/
def pauliChoices : List PauliMeas := [PauliMeas.X, PauliMeas.Y, PauliMeas.Z]

/-- Modelled from the spec: the n-fold Cartesian product of the single-qubit
basis choices, in a fixed order. -/
def settingsList : ℕ → List (List PauliMeas)
  | 0 => [[]]
  | n + 1 => pauliChoices.flatMap (fun b => (settingsList n).map (fun s => b :: s))

/-- Modelled from the spec: the single-qubit projector onto the outcome of a
basis choice; the Boolean index false is the first computational basis state. -/
noncomputable def projOf : PauliMeas → Bool → Matrix Bool Bool ℂ
  | PauliMeas.X, b => fun i j =>
      if i = j then 1/2 else (if b then -(1/2) else 1/2)
  | PauliMeas.Y, b => fun i j =>
      match i, j with
      | false, false => 1/2
      | true, true => 1/2
      | false, true => if b then Complex.I/2 else -Complex.I/2
      | true, false => if b then -Complex.I/2 else Complex.I/2
  | PauliMeas.Z, b => fun i j =>
      if i = b ∧ j = b then 1 else 0

/-- Tensor product of n single-qubit matrices, indexed by assignments of a
Boolean to each qubit. -/
noncomputable def tensorOp (n : ℕ) (f : Fin n → Matrix Bool Bool ℂ) :
    Matrix (Fin n → Bool) (Fin n → Bool) ℂ :=
  fun i j => ∏ k, f k (i k) (j k)

/-- Modelled from the spec: the per-outcome measurement operator of a setting,
the tensor product of the single-qubit outcome projectors. -/
noncomputable def measOpOf (n : ℕ) (s : List PauliMeas) (o : Fin n → Bool) :
    Matrix (Fin n → Bool) (Fin n → Bool) ℂ :=
  tensorOp n (fun k => projOf (s.getD k PauliMeas.Z) (o k))

/-- Modelled from the spec: the basis generator; it fails with
InvalidConfiguration when the qubit count is zero or the basis-set identifier
is not recognized, and otherwise returns every measurement setting paired with
its outcome-operator map. Models `state_tomography_circuits` basis generation,
which is not part of the repository sources. -/
noncomputable def basisGenerator (n : ℕ) (basisId : String) :
    Except TomoError
      (List (List PauliMeas ×
        ((Fin n → Bool) → Matrix (Fin n → Bool) (Fin n → Bool) ℂ))) :=
  if n = 0 ∨ basisId ≠ "Pauli" then .error .invalidConfiguration
  else .ok ((settingsList n).map (fun s => (s, fun o => measOpOf n s o)))

lemma settingsList_length (n : ℕ) : (settingsList n).length = 3 ^ n := by
  induction n with
  | zero => rfl
  | succ n ih =>
      simp [settingsList, pauliChoices, ih]
      ring

lemma settingsList_ne_nil (n : ℕ) : settingsList n ≠ [] := by
  intro h
  have hlen := congrArg List.length h
  rw [settingsList_length] at hlen
  simp at hlen

lemma mem_settingsList (n : ℕ) (s : List PauliMeas) :
    s ∈ settingsList n ↔ s.length = n := by
  induction n generalizing s with
  | zero =>
      simp [settingsList, List.length_eq_zero]
  | succ n ih =>
      simp only [settingsList, List.mem_flatMap, List.mem_map]
      constructor
      · rintro ⟨b, _, t, ht, rfl⟩
        simp [ (ih t).mp ht ]
      · intro hlen
        match s with
        | [] => simp at hlen
        | b :: t =>
            refine ⟨b, ?_, t, (ih t).mpr (by simpa using hlen), rfl⟩
            cases b <;> simp [pauliChoices]

lemma settingsList_nodup (n : ℕ) : (settingsList n).Nodup := by
  induction n with
  | zero => simp [settingsList]
  | succ n ih =>
      have hmap : ∀ b : PauliMeas, ((settingsList n).map (fun s => b :: s)).Nodup :=
        fun b => ih.map (fun s t h => by injection h)
      have hdisj : ∀ b c : PauliMeas, b ≠ c →
          ∀ x, x ∈ (settingsList n).map (fun s => b :: s) →
            x ∉ (settingsList n).map (fun s => c :: s) := by
        rintro b c hbc x hx hx'
        simp only [List.mem_map] at hx hx'
        obtain ⟨s, _, rfl⟩ := hx
        obtain ⟨t, _, heq⟩ := hx'
        injection heq with h1 _
        exact hbc h1.symm
      show (pauliChoices.flatMap (fun b => (settingsList n).map (fun s => b :: s))).Nodup
      have : pauliChoices.flatMap (fun b => (settingsList n).map (fun s => b :: s))
          = (settingsList n).map (fun s => PauliMeas.X :: s) ++
            ((settingsList n).map (fun s => PauliMeas.Y :: s) ++
              (settingsList n).map (fun s => PauliMeas.Z :: s)) := by
        simp [pauliChoices]
      rw [this]
      refine List.Nodup.append (hmap _) (List.Nodup.append (hmap _) (hmap _) ?_) ?_
      · intro x hx hx'
        exact hdisj _ _ (by simp) x hx hx'
      · intro x hx hx'
        rcases List.mem_append.mp hx' with h | h
        · exact hdisj _ _ (by simp) x hx h
        · exact hdisj _ _ (by simp) x hx h

lemma basisGenerator_error_iff (n : ℕ) (basisId : String) :
    basisGenerator n basisId = .error .invalidConfiguration ↔ (n = 0 ∨ basisId ≠ "Pauli") := by
  unfold basisGenerator
  by_cases h : n = 0 ∨ basisId ≠ "Pauli"
  · rw [if_pos h]
    simpa using h
  · rw [if_neg h]
    simpa using h

/-- Header of one experiment result, as mutated by the notebook cell. -/
structure ExpHeader where
  creg_sizes : List (String × ℕ)
  clbit_labels : List (String × ℕ)
  memory_slots : ℕ
  deriving DecidableEq, Repr

/-- One experiment result of the executor: header plus counts. -/
structure ExpResult where
  header : ExpHeader
  counts : OutcomeCount
  deriving DecidableEq, Repr

instance : Inhabited ExpResult :=
  ⟨⟨⟨[], [], 0⟩, []⟩⟩

/-- The notebook's inner loop over count keys: keep keys whose ancilla register
reads one and drop that register. The notebook assigns the accumulating
dictionary on every key; the final assignment equals this one-shot map. -/
def stripAncillaCounts (old_counts : OutcomeCount) : OutcomeCount :=
  (old_counts.filter (fun kv => kv.1.headD ("") = "1")).map (fun kv => (kv.1.tail, kv.2))

/-- One iteration body of the notebook loop: counts are rebuilt from the raw
result's counts, while the header sizes are rewritten in place on the copy. -/
def transformResult (r_raw r_new : ExpResult) : ExpResult :=
  { header :=
      { creg_sizes := r_new.header.creg_sizes.take 1,
        clbit_labels := r_new.header.clbit_labels.dropLast,
        memory_slots := 2 },
    counts := stripAncillaCounts r_raw.counts }

/-- State of the notebook loop: the raw results object and its deep copy. -/
structure LoopState where
  raw : List ExpResult
  new : List ExpResult

/-- One loop iteration: only the copy is written, at the current index. -/
def loopStep (s : LoopState) (idx : ℕ) : LoopState :=
  { raw := s.raw,
    new := s.new.set idx (transformResult (s.raw.getD idx default) (s.new.getD idx default)) }

/-- The whole notebook post-selection loop, iterating over all result indices
starting from a deep copy of the raw results. -/
def postSelectionLoop (raw_results : List ExpResult) : LoopState :=
  (List.range raw_results.length).foldl loopStep { raw := raw_results, new := raw_results }

lemma foldl_loopStep_raw (l : List ℕ) (s : LoopState) :
    (l.foldl loopStep s).raw = s.raw := by
  induction l generalizing s with
  | nil => rfl
  | cons i tl ih =>
      rw [List.foldl_cons, ih]
      rfl

lemma postSelectionLoop_raw_unchanged (raw_results : List ExpResult) :
    (postSelectionLoop raw_results).raw = raw_results :=
  foldl_loopStep_raw _ _

lemma mul_diagonal_mul_star_eq_sum {ι : Type} [Fintype ι] [DecidableEq ι]
    (U : Matrix ι ι ℂ) (c : ι → ℂ) :
    U * Matrix.diagonal c * star U
      = ∑ k, c k • Matrix.of (fun i j => U i k * star (U j k)) := by
  ext i j
  rw [Matrix.sum_apply]
  rw [Matrix.mul_apply]
  have hcell : ∀ k, (U * Matrix.diagonal c) i k * (star U) k j
      = c k * (U i k * star (U j k)) := by
    intro k
    rw [Matrix.mul_diagonal, Matrix.star_apply]
    ring
  rw [Finset.sum_congr rfl fun k _ => hcell k]
  refine Finset.sum_congr rfl fun k _ => ?_
  rw [Matrix.smul_apply, Matrix.of_apply, smul_eq_mul]

lemma projectH_eq_sum_outer {ι : Type} [Fintype ι] [DecidableEq ι]
    (S : Matrix ι ι ℂ) (hS : S.IsHermitian) :
    projectH S hS
      = ∑ k, ((max (hS.eigenvalues k) 0 / ∑ j, max (hS.eigenvalues j) 0 : ℝ) : ℂ) •
          Matrix.of (fun i j => (hS.eigenvectorUnitary : Matrix ι ι ℂ) i k *
            star ((hS.eigenvectorUnitary : Matrix ι ι ℂ) j k)) := by
  unfold projectH
  exact mul_diagonal_mul_star_eq_sum _ _

lemma pauliBasis1_isHermitian : ∀ j, (pauliBasis1 j).IsHermitian := by
  intro j
  fin_cases j <;>
    · unfold pauliBasis1 Matrix.IsHermitian
      ext i k
      fin_cases i <;> fin_cases k <;>
        simp [sigmaX, sigmaY, sigmaZ, Matrix.conjTranspose_apply,
          Matrix.vecHead, Matrix.vecTail]

lemma pauliBasis1_traceless : ∀ j, (pauliBasis1 j).trace = 0 := by
  intro j
  fin_cases j <;>
    simp [pauliBasis1, sigmaX, sigmaY, sigmaZ, Matrix.trace_fin_two,
      Matrix.vecHead, Matrix.vecTail]

/-- Claim C1: for every FrequencyEntry list accepted by the reconstruction engine's
fit (any probabilities, including adversarial or inconsistent ones), the returned
estimate is Hermitian, has trace exactly 1, is positive semidefinite, and all of
its eigenvalues are nonnegative (hence at least minus any tolerance). -/
theorem spec_C1 {ι : Type} [Fintype ι] [DecidableEq ι] [Nonempty ι] {p : ℕ}
    (B : Fin p → Matrix ι ι ℂ) (_hB1 : ∀ j, (B j).IsHermitian) (hB2 : ∀ j, (B j).trace = 0)
    (weighted : Bool) (eps : ℝ) (entries : List (FrequencyEntry ι)) (ρ : Matrix ι ι ℂ)
    (h : fit B weighted eps entries = .ok ρ) :
    ρ.IsHermitian ∧ ρ.trace = 1 ∧ ρ.PosSemidef ∧
      ∀ (hh : ρ.IsHermitian) (i : ι), 0 ≤ hh.eigenvalues i := by
  obtain ⟨h1, h2, h3⟩ := fit_ok_invariants B hB2 weighted eps entries ρ h
  exact ⟨h1, h2, h3, fun hh i => h3.eigenvalues_nonneg i⟩

/-- Witness for C1 at the 1-qubit Hadamard data set. -/
theorem spec_C1_witness :
    rhoPlus.IsHermitian ∧ rhoPlus.trace = 1 ∧ rhoPlus.PosSemidef ∧
      ∀ (hh : rhoPlus.IsHermitian) (i : Fin 2), 0 ≤ hh.eigenvalues i :=
  spec_C1 pauliBasis1 pauliBasis1_isHermitian pauliBasis1_traceless false 0
    hadamardEntries rhoPlus fit_hadamard

/-- Claim C2: fit fails with InsufficientData exactly on the empty FrequencyEntry
list; every non-empty input (under-determined or not, thanks to the pseudo-inverse
solve) yields a Hermitian, trace-1, positive-semidefinite estimate. -/
theorem spec_C2 {ι : Type} [Fintype ι] [DecidableEq ι] [Nonempty ι] {p : ℕ}
    (B : Fin p → Matrix ι ι ℂ) (hB2 : ∀ j, (B j).trace = 0)
    (weighted : Bool) (eps : ℝ) (entries : List (FrequencyEntry ι)) :
    (fit B weighted eps entries = .error .insufficientData ↔ entries = []) ∧
    (entries ≠ [] → ∃ ρ, fit B weighted eps entries = .ok ρ ∧
      ρ.IsHermitian ∧ ρ.trace = 1 ∧ ρ.PosSemidef) := by
  constructor
  · constructor
    · intro h
      by_contra hne
      rw [fit_ok_of_ne_nil B weighted eps entries hne] at h
      exact absurd h (by simp)
    · intro h
      subst h
      rfl
  · intro hne
    refine ⟨project (rhoRaw B weighted eps entries.length entries.get),
      fit_ok_of_ne_nil B weighted eps entries hne, ?_⟩
    exact fit_ok_invariants B hB2 weighted eps entries _
      (fit_ok_of_ne_nil B weighted eps entries hne)

/-- Witness for C2 at the 1-qubit Hadamard data set. -/
theorem spec_C2_witness :
    (fit pauliBasis1 false (0 : ℝ) hadamardEntries = .error .insufficientData ↔
      hadamardEntries = []) ∧
    (hadamardEntries ≠ [] → ∃ ρ, fit pauliBasis1 false (0 : ℝ) hadamardEntries = .ok ρ ∧
      ρ.IsHermitian ∧ ρ.trace = 1 ∧ ρ.PosSemidef) :=
  spec_C2 pauliBasis1 pauliBasis1_traceless false 0 hadamardEntries

/-- Claim C3: on a Hermitian intermediate, the physical projection step equals the
spectral reconstruction with eigenvalues clipped at zero and rescaled to unit sum,
summed over rank-one eigenvector outer products; and it is a deterministic
function of the intermediate matrix. -/
theorem spec_C3 {ι : Type} [Fintype ι] [DecidableEq ι]
    (ρ : Matrix ι ι ℂ) (hρ : ρ.IsHermitian) :
    (project ρ = ∑ k, ((max (hρ.eigenvalues k) 0 / ∑ j, max (hρ.eigenvalues j) 0 : ℝ) : ℂ) •
        Matrix.of (fun i j => (hρ.eigenvectorUnitary : Matrix ι ι ℂ) i k *
          star ((hρ.eigenvectorUnitary : Matrix ι ι ℂ) j k))) ∧
    (∀ σ : Matrix ι ι ℂ, σ = ρ → project σ = project ρ) := by
  constructor
  · rw [project_eq_projectH ρ hρ]
    exact projectH_eq_sum_outer ρ hρ
  · intro σ h
    rw [h]

/-- Witness for C3 at the identity matrix on two indices. -/
theorem spec_C3_witness :
    (project (1 : Matrix (Fin 2) (Fin 2) ℂ) =
      ∑ k, ((max ((Matrix.isHermitian_one (n := Fin 2) (α := ℂ)).eigenvalues k) 0 /
            ∑ j, max ((Matrix.isHermitian_one (n := Fin 2) (α := ℂ)).eigenvalues j) 0 : ℝ) : ℂ) •
          Matrix.of (fun i j =>
            ((Matrix.isHermitian_one (n := Fin 2) (α := ℂ)).eigenvectorUnitary :
              Matrix (Fin 2) (Fin 2) ℂ) i k *
            star (((Matrix.isHermitian_one (n := Fin 2) (α := ℂ)).eigenvectorUnitary :
              Matrix (Fin 2) (Fin 2) ℂ) j k))) ∧
    (∀ σ : Matrix (Fin 2) (Fin 2) ℂ, σ = 1 → project σ = project 1) :=
  spec_C3 1 Matrix.isHermitian_one

/-- Claim C4: the PSD plus trace-1 physical projection is idempotent: an already
physical matrix (Hermitian, PSD, trace one) is a fixed point of the projection. -/
theorem spec_C4 {ι : Type} [Fintype ι] [DecidableEq ι] (ρ : Matrix ι ι ℂ)
    (h1 : ρ.IsHermitian) (h2 : ρ.PosSemidef) (h3 : ρ.trace = 1) :
    project ρ = ρ :=
  (project_eq_projectH ρ h1).trans (projectH_fixed ρ h1 h2 h3)

/-- Witness for C4 at the plus-state density matrix. -/
theorem spec_C4_witness : project rhoPlus = rhoPlus :=
  spec_C4 rhoPlus rhoPlus_isHermitian rhoPlus_posSemidef rhoPlus_trace

/-- Claim C5: the aggregator's post-selection keeps exactly the outcomes whose
ancilla register equals the required value (dropping that register from the key),
renormalizes surviving counts into probabilities summing to one, contributes no
FrequencyEntry for a configuration in which zero shots survive, still lets the
reconstruction engine produce a result from the remaining configurations, and
behaves as the identity when no ancilla is configured. -/
theorem spec_C5 {ι : Type} [Fintype ι] [DecidableEq ι] {p : ℕ}
    (B : Fin p → Matrix ι ι ℂ)
    (req : String) (c : OutcomeCount) (k : List String) (m : ℕ)
    (cfg : Option String) (cd cd' : ConfigData ι) (cds : List (ConfigData ι))
    (weighted : Bool) (eps : ℝ)
    (ht : totalShots (applyPostSelection cfg cd.counts) ≠ 0)
    (hz : totalShots (applyPostSelection cfg cd'.counts) = 0)
    (hne : aggregate (some ("1")) cds ≠ []) :
    ((k, m) ∈ applyPostSelection (some req) c ↔
      ∃ key, (key, m) ∈ c ∧ key.headD ("") = req ∧ key.tail = k) ∧
    ((aggregateConfig cfg cd).map FrequencyEntry.prob).sum = 1 ∧
    aggregateConfig cfg cd' = [] ∧
    (∃ ρ, fit B weighted eps (aggregate (some ("1")) cds) = .ok ρ) ∧
    applyPostSelection none c = c :=
  ⟨mem_applyPostSelection_some req c k m,
   aggregateConfig_prob_sum cfg cd ht,
   aggregateConfig_empty_of_no_survivors cfg cd' hz,
   ⟨_, fit_ok_of_ne_nil B weighted eps _ hne⟩,
   applyPostSelection_none c⟩

/-- Witness for C5 on a concrete two-outcome count with ancilla register. -/
theorem spec_C5_witness :
    (((["0"], 3) ∈ applyPostSelection (some ("1")) [(["1", "0"], 3), (["0", "1"], 2)] ↔
      ∃ key, (key, 3) ∈ [(["1", "0"], 3), (["0", "1"], 2)] ∧
        key.headD ("") = "1" ∧ key.tail = ["0"]) ∧
    ((aggregateConfig (some ("1")) demoConfig).map FrequencyEntry.prob).sum = 1 ∧
    aggregateConfig (some ("1")) demoConfigDead = [] ∧
    (∃ ρ, fit pauliBasis1 false (0 : ℝ) (aggregate (some ("1")) [demoConfig]) = .ok ρ) ∧
    applyPostSelection none [(["1", "0"], 3), (["0", "1"], 2)] =
      [(["1", "0"], 3), (["0", "1"], 2)]) :=
  spec_C5 pauliBasis1 ("1") [(["1", "0"], 3), (["0", "1"], 2)] ["0"] 3
    (some ("1")) demoConfig demoConfigDead [demoConfig] false 0
    (by decide)
    (by decide)
    (by simp [aggregate, aggregateConfig, demoConfig, applyPostSelection, totalShots])

/-- Claim C6: for a positive qubit count and the recognized Pauli basis-set
identifier, the basis generator succeeds deterministically with the non-empty
fixed-order list of all measurement settings (the n-fold Cartesian product of the
single-qubit choices, with no duplicates and 3 to the n elements), each outcome
operator being the tensor product of single-qubit projectors; and it fails with
InvalidConfiguration exactly when the count is zero or the identifier is not
recognized. -/
theorem spec_C6 (n : ℕ) (basisId : String) (hn : 0 < n) (hid : basisId = "Pauli") :
    basisGenerator n basisId
        = .ok ((settingsList n).map (fun s => (s, fun o => measOpOf n s o))) ∧
    settingsList n ≠ [] ∧
    (settingsList n).length = 3 ^ n ∧
    (∀ s, s ∈ settingsList n ↔ s.length = n) ∧
    (settingsList n).Nodup ∧
    (∀ s o, measOpOf n s o = tensorOp n (fun k => projOf (s.getD k PauliMeas.Z) (o k))) ∧
    (∀ (n' : ℕ) (id' : String),
      basisGenerator n' id' = .error .invalidConfiguration ↔ (n' = 0 ∨ id' ≠ "Pauli")) := by
  refine ⟨?_, settingsList_ne_nil n, settingsList_length n, mem_settingsList n,
    settingsList_nodup n, fun s o => rfl, basisGenerator_error_iff⟩
  unfold basisGenerator
  rw [if_neg]
  push_neg
  exact ⟨by omega, by simp [hid]⟩

/-- Witness for C6 at one qubit with the Pauli identifier. -/
theorem spec_C6_witness :
    basisGenerator 1 ("Pauli")
        = .ok ((settingsList 1).map (fun s => (s, fun o => measOpOf 1 s o))) ∧
    settingsList 1 ≠ [] ∧
    (settingsList 1).length = 3 ^ 1 ∧
    (∀ s, s ∈ settingsList 1 ↔ s.length = 1) ∧
    (settingsList 1).Nodup ∧
    (∀ s o, measOpOf 1 s o = tensorOp 1 (fun k => projOf (s.getD k PauliMeas.Z) (o k))) ∧
    (∀ (n' : ℕ) (id' : String),
      basisGenerator n' id' = .error .invalidConfiguration ↔ (n' = 0 ∨ id' ≠ "Pauli")) :=
  spec_C6 1 ("Pauli") (by decide) rfl

/-- Claim C7: fit is a pure function of its inputs: equal FrequencyEntry lists
give equal density-matrix estimates, with no hidden state between invocations. -/
theorem spec_C7 {ι : Type} [Fintype ι] [DecidableEq ι] {p : ℕ}
    (B : Fin p → Matrix ι ι ℂ) (weighted : Bool) (eps : ℝ)
    (e₁ e₂ : List (FrequencyEntry ι)) (h : e₁ = e₂) :
    fit B weighted eps e₁ = fit B weighted eps e₂ := by
  rw [h]

/-- Witness for C7 on the Hadamard data set. -/
theorem spec_C7_witness :
    fit pauliBasis1 false (0 : ℝ) hadamardEntries
      = fit pauliBasis1 false (0 : ℝ) hadamardEntries :=
  spec_C7 pauliBasis1 false 0 hadamardEntries hadamardEntries rfl

/-- Claim C8: on the 1-qubit noiseless Hadamard frequencies over the six Pauli
outcome operators, fit returns exactly the plus-state density matrix, whose
fidelity against the plus ket is at least 0.999. -/
theorem spec_C8 :
    fit pauliBasis1 false (0 : ℝ) hadamardEntries = .ok !![1/2, 1/2; 1/2, 1/2] ∧
    fidelityPure plusKet !![1/2, 1/2; 1/2, 1/2] ≥ 999/1000 := by
  constructor
  · exact fit_hadamard
  · have h := fidelity_plus
    unfold rhoPlus at h
    rw [h]
    norm_num

/-- Claim C9: the conditional-tomography post-selection loop leaves the original
raw results (headers and counts) exactly as the executor returned them; only the
deep copy is rewritten. -/
theorem spec_C9 (raw_results : List ExpResult) :
    (postSelectionLoop raw_results).raw = raw_results :=
  postSelectionLoop_raw_unchanged raw_results
